import Mathlib

/-!
Verification of the politeness-styling pipeline (`politely/processors.py`, with the
legacy variant `politetune/processors.py`).

Strings are modelled as `List Char`; Python's `str` methods used by the source
(`strip`, `endswith`, `replace`, `split`, `in`, `startswith`-like prefix tests)
are embedded below.  The morphological analyzer, and the four rule tables, are
external collaborators of the core and are passed in as parameters.
-/

namespace Politely

/-- The characters of a string literal, for writing concrete inputs. -/
def cs (s : String) : List Char := s.toList

/-- Prefix test: `startsWith p s` — does `p` occur as a prefix of `s`? -/
def startsWith : List Char → List Char → Bool
  | [], _ => true
  | _ :: _, [] => false
  | p :: ps, c :: rest => p == c && startsWith ps rest

/-- Python's substring test `pat in s`: `pat` occurs contiguously in `s`. -/
def containsSub (pat s : List Char) : Bool :=
  (List.range (s.length + 1)).any fun i => startsWith pat (s.drop i)

/-- Fuel-driven worker for `replaceAll`; fuel `≥ s.length` never runs out when
`old ≠ []`, since every step consumes at least one character of `s`. -/
def replaceAllGo (old new : List Char) : Nat → List Char → List Char
  | _, [] => []
  | 0, s => s
  | fuel + 1, c :: rest =>
    if startsWith old (c :: rest) then
      new ++ replaceAllGo old new fuel (rest.drop (old.length - 1))
    else
      c :: replaceAllGo old new fuel rest

/-- Python's `s.replace(old, new)`: replace every (leftmost, non-overlapping)
occurrence of `old` in `s` by `new`.  For `old = ""` Python inserts `new`
before every character and at the end; that case is never reached by the
pipeline (rule-table keys are nonempty) but is kept for fidelity. -/
def replaceAll (old new s : List Char) : List Char :=
  if old.isEmpty then new ++ s.flatMap (fun c => c :: new)
  else replaceAllGo old new s.length s

/-- The `(^|.*\+)` part of `Styler.matched`'s regex, applied to the text `a`
standing before the candidate occurrence: either `a` is empty (`^`) or it ends
in `'+'` with no newline before it (`.` does not match a newline). -/
def prefixAnchor (a : List Char) : Bool :=
  a.isEmpty || (a.getLast? == some '+' && !(a.dropLast.contains '\n'))

/-- The `(\+.*|$)` part of `Styler.matched`'s regex, applied to the text `b`
standing after the candidate occurrence: `b` starts with `'+'`, or the
occurrence sits at the end of the string (Python's `$` also matches just
before a single final newline). -/
def suffixAnchor (b : List Char) : Bool :=
  b.isEmpty || b == ['\n'] || b.head? == some '+'

/-- Source `Styler.matched(pattern, string)`:
`re.match("(^|.*\+)" ++ re.escape(pattern) ++ "(\+.*|$)", string)` is truthy,
i.e. `pattern` occurs literally in `string` at some position whose left and
right contexts satisfy the two anchor alternations. -/
def matched (pattern s : List Char) : Bool :=
  (List.range (s.length + 1)).any fun i =>
    prefixAnchor (s.take i) && startsWith pattern (s.drop i) &&
      suffixAnchor ((s.drop i).drop pattern.length)

/-! ### Data model: morphemes, tokens, rule tables, errors -/

/-- A morpheme as produced by the external analyzer: surface form plus
grammatical tag.  `str(morph)` in the source renders it as `surface/tag`. -/
structure Morph where
  surface : List Char
  tag : List Char
deriving DecidableEq, Repr

/-- Rendering `str(morph)`: the `surface/tag` rendering used throughout the pipeline. -/
def morphStr (m : Morph) : List Char := m.surface ++ '/' :: m.tag

/-- A token of the external analyzer: its lexical form plus its ordered
morphemes. -/
structure Token where
  lex : List Char
  morphs : List Morph
deriving DecidableEq, Repr

/-- A token's joined signature: `"+".join(map(str, token.morphs))`. -/
def sigOf (t : Token) : List Char := List.intercalate ['+'] (t.morphs.map morphStr)

/-- The honorific-pattern table: an ordered sequence of
(pattern key, politeness level ↦ replacement) entries.  Iteration order of the
Python dict is the order of this list.  In the source the value is a dict from
the politeness level (1, 2 or 3) to the replacement span; it is modelled as a
total function on levels. -/
abbrev Honorifics : Type := List (List Char × (Nat → List Char))

/-- The politeness-rule table `RULES`: listener ↦ environment ↦ politeness
level.  The `reason` field of the source's inner dict is not consumed by the
pipeline and is omitted.  The table itself is loaded by external fetchers that
are out of scope; it enters the pipeline as a parameter. -/
abbrev Rules : Type := List (List Char × List (List Char × Nat))

/-- The abbreviation / irregular rule tables: ordered (key, replacement)
pairs of literal substrings. -/
abbrev SubstTable : Type := List (List Char × List Char)

/-- Lookup `RULES[listener][environ]['politeness']`: two nested dict lookups; a
missing key at either level is Python's `KeyError`, surfaced here as `none`. -/
def lookupRule (rules : Rules) (listener environ : List Char) : Option Nat :=
  match rules.lookup listener with
  | none => none
  | some inner => inner.lookup environ

/-- The error taxonomy of the pipeline.  `unsupportedInput` is the source's
`EFNotIncludedError` (spec: `UnsupportedInputError`), `unrecognizedPattern`
is `EFNotSupportedError` (spec: `UnrecognizedPatternError`), and
`unknownRuleKey` is the `KeyError` escaping the `RULES` lookup (spec:
`UnknownRuleKeyError`). -/
inductive Err where
  | unsupportedInput : List Char → Err
  | unrecognizedPattern : List Char → Err
  | unknownRuleKey : Err
deriving DecidableEq, Repr

/-- Is the outcome an `UnsupportedInputError`? -/
def isUnsupportedInput {α : Type} : Except Err α → Bool
  | .error (.unsupportedInput _) => true
  | _ => false

/-! ### The pipeline stages of `Styler` -/

/-- Python's per-character whitespace test, restricted to the ASCII whitespace
characters (Python's `str.strip` strips all Unicode whitespace; the pipeline's
behavior only depends on whitespace being trimmed, not on the exact set). -/
def pyIsSpace (c : Char) : Bool :=
  c == ' ' || c == '\t' || c == '\n' || c == '\r' || c == '\x0b' || c == '\x0c'

/-- Python's `sent.strip()`: drop whitespace from both ends. -/
def pyStrip (s : List Char) : List Char :=
  ((s.dropWhile pyIsSpace).reverse.dropWhile pyIsSpace).reverse

/-- Python's `s.endswith(str(c))` for a one-character suffix. -/
def endsWithCh (c : Char) (s : List Char) : Bool := s.getLast? == some c

/-- Source `Styler.preprocess`: strip the sentence; unless it already ends with `?`
or `!`, append `.` when it does not already end with `.`. -/
def preprocess (sent : List Char) : List Char :=
  let out := pyStrip sent
  if !(endsWithCh '?' out) && !(endsWithCh '!' out) then
    if !(endsWithCh '.' out) then out ++ ['.'] else out
  else out

/-- Source `Styler.check`: collect the joined signatures that contain `"EF"` as a
substring; error with `EFNotIncludedError` (joining all signatures with `|`)
when there is none, and with `EFNotSupportedError ef` for the first such `ef`
matched by no honorific-pattern key. -/
def check (honor : Honorifics) (toks : List Token) : Except Err Unit :=
  let sigs := toks.map sigOf
  let efs := sigs.filter fun s => containsSub (cs "EF") s
  if efs.isEmpty then
    .error (.unsupportedInput (List.intercalate ['|'] sigs))
  else
    match efs.find? (fun ef => !(honor.any fun kv => matched kv.1 ef)) with
    | some ef => .error (.unrecognizedPattern ef)
    | none => .ok ()

/-- The inner loop of `Styler.conjugate` on one token's joined signature:
`for pattern in HONORIFICS: if matched(pattern, tuned): tuned =
tuned.replace(pattern, HONORIFICS[pattern][politeness]);
history.add((pattern, honorific))`.  The history is threaded as a list; set
membership is what the claims consume. -/
def conjSub (honor : Honorifics) (pol : Nat) (s : List Char) :
    List Char × List (List Char × List Char) :=
  honor.foldl
    (fun acc kv =>
      if matched kv.1 acc.1 then
        (replaceAll kv.1 (kv.2 pol) acc.1, acc.2 ++ [(kv.1, kv.2 pol)])
      else acc)
    (s, [])

/-- The part of a morpheme string before its first `/`:
Python's `morph.split("/")[0]`. -/
def beforeSlash (m : List Char) : List Char := m.takeWhile (· != '/')

/-- Source `Styler.conjugate`, per token: substitute on the joined signature, rebuild
the surface before and after, and emit the rebuilt surface only when it
changed, else the token's lexical form. -/
def conjToken (honor : Honorifics) (pol : Nat) (t : Token) :
    List Char × List (List Char × List Char) :=
  let morphs := t.morphs.map morphStr
  let r := conjSub honor pol (List.intercalate ['+'] morphs)
  let before := (morphs.map beforeSlash).flatten
  let after := ((r.1.splitOn '+').map beforeSlash).flatten
  (if before != after then after else t.lex, r.2)

/-- Source `Styler.conjugate` over the whole token list: per-token outputs joined by
single spaces, per-token substitution records accumulated into one history. -/
def conjugate (honor : Honorifics) (pol : Nat) (toks : List Token) :
    List Char × List (List Char × List Char) :=
  let step := toks.foldl
    (fun acc t =>
      let r := conjToken honor pol t
      (acc.1 ++ [r.1], acc.2 ++ r.2))
    ([], [])
  (List.intercalate [' '] step.1, step.2)

/-- Sources `Styler.abbreviate` / `Styler.apply_irregulars`: iterate the rule table in
order; whenever the key occurs in the current text, replace all occurrences
and record the pair. -/
def cleanupStage (table : SubstTable) (text : List Char) :
    List Char × List (List Char × List Char) :=
  table.foldl
    (fun acc kv =>
      if containsSub kv.1 acc.1 then (replaceAll kv.1 kv.2 acc.1, acc.2 ++ [kv])
      else acc)
    (text, [])

/-- One entry of the run's `logs`: the first snapshot is the analyzed token
list, the later ones are stage-output texts. -/
inductive LogEntry where
  | tokens : List Token → LogEntry
  | text : List Char → LogEntry
deriving DecidableEq, Repr

/-- What a completed invocation of `Styler.__call__` exposes: the returned
string, the four stage snapshots (`self.logs`), and the three
substitution-history sets. -/
structure RunResult where
  out : List Char
  logs : List LogEntry
  conjHist : List (List Char × List Char)
  abbrHist : List (List Char × List Char)
  irregHist : List (List Char × List Char)
deriving DecidableEq, Repr

/-- Source `Styler.__call__`: preprocess, analyze (the analyzer is a parameter),
check, then log; conjugate (which first resolves the politeness level), log;
abbreviate, log; apply irregulars, log; return the final text.  A raised
error aborts the invocation with no output. -/
def run (rules : Rules) (honor : Honorifics) (abbrevT irregT : SubstTable)
    (analyze : List Char → List Token)
    (sent listener environ : List Char) : Except Err RunResult :=
  match check honor (analyze (preprocess sent)) with
  | .error e => .error e
  | .ok _ =>
    match lookupRule rules listener environ with
    | none => .error .unknownRuleKey
    | some pol =>
      let toks := analyze (preprocess sent)
      let c := conjugate honor pol toks
      let a := cleanupStage abbrevT c.1
      let i := cleanupStage irregT a.1
      .ok { out := i.1,
            logs := [.tokens toks, .text c.1, .text a.1, .text i.1],
            conjHist := c.2, abbrHist := a.2, irregHist := i.2 }

/-! ### The stateful view of `Styler` (instance fields reused across calls) -/

/-- The mutable instance fields of a `Styler` object that survive between
invocations: the last output, `self.logs`, and the three history sets. -/
structure StylerState where
  out : List Char
  logsS : List LogEntry
  histC : List (List Char × List Char)
  histA : List (List Char × List Char)
  histI : List (List Char × List Char)
deriving DecidableEq, Repr

/-- Source `Styler.clear`: empty the logs and the three history sets (the previous
output and arguments are left in place; they are overwritten before use). -/
def clearS (st : StylerState) : StylerState :=
  { st with logsS := [], histC := [], histA := [], histI := [] }

/-- Source `Styler.__call__` as a transition on the instance state: `clear`, then the
stage chain, each stage mutating `out`/`logs`/the history fields exactly as
the source does.  The returned string is the final `out` field. -/
def callS (rules : Rules) (honor : Honorifics) (abbrevT irregT : SubstTable)
    (analyze : List Char → List Token) (st : StylerState)
    (sent listener environ : List Char) : Except Err StylerState :=
  let st0 := clearS st
  let toks := analyze (preprocess sent)
  match check honor toks with
  | .error e => .error e
  | .ok _ =>
    let st1 := { st0 with logsS := st0.logsS ++ [LogEntry.tokens toks] }
    match lookupRule rules listener environ with
    | none => .error .unknownRuleKey
    | some pol =>
      let c := conjugate honor pol toks
      let st2 := { st1 with
        out := c.1
        histC := st1.histC ++ c.2
        logsS := st1.logsS ++ [LogEntry.text c.1] }
      let a := cleanupStage abbrevT st2.out
      let st3 := { st2 with
        out := a.1
        histA := st2.histA ++ a.2
        logsS := st2.logsS ++ [LogEntry.text a.1] }
      let i := cleanupStage irregT st3.out
      .ok { st3 with
        out := i.1
        histI := st3.histI ++ i.2
        logsS := st3.logsS ++ [LogEntry.text i.1] }

/-! ### The legacy `Tuner` variant (`politetune/processors.py`) -/

/-- Source `Tuner.preprocess`: append `.` unless the sentence already ends with `.`
(no stripping, no `?`/`!` handling in this variant). -/
def preprocessT (sent : List Char) : List Char :=
  if endsWithCh '.' sent then sent else sent ++ ['.']

/-- The `substrings` list of `Tuner.apply_honorifics`: the `+`-joined slices
`morphs[i:j]` for every `0 ≤ i < j ≤ len(morphs)`
(`itertools.combinations(range(len(morphs) + 1), 2)`). -/
def spansOf (morphs : List (List Char)) : List (List Char) :=
  (List.range (morphs.length + 1)).flatMap fun i =>
    (List.range (morphs.length + 1)).filterMap fun j =>
      if i < j then some (List.intercalate ['+'] ((morphs.drop i).take (j - i)))
      else none

/-- Source `Tuner.apply_honorifics`, per token: when some slice of the morpheme
strings is literally a table key, run `replace` for **every** pattern
(unconditionally, recording every pair) and rebuild the surface; otherwise
emit the lexical form. -/
def tunerToken (honor : Honorifics) (pol : Nat) (t : Token) :
    List Char × List (List Char × List Char) :=
  let morphs := t.morphs.map morphStr
  if (spansOf morphs).any (fun s => honor.any fun kv => kv.1 == s) then
    let r := honor.foldl
      (fun acc kv => (replaceAll kv.1 (kv.2 pol) acc.1, acc.2 ++ [(kv.1, kv.2 pol)]))
      (List.intercalate ['+'] morphs, [])
    (((r.1.splitOn '+').map beforeSlash).flatten, r.2)
  else (t.lex, [])

/-- What a completed invocation of `Tuner.__call__` exposes. -/
structure TunerResult where
  out : List Char
  logs : List LogEntry
  histH : List (List Char × List Char)
  histA : List (List Char × List Char)
  histI : List (List Char × List Char)
deriving DecidableEq, Repr

/-- Source `Tuner.__call__`: preprocess, analyze, log; apply honorifics (resolving
the politeness level first), log; abbreviations, log; irregulars, log;
postprocess (`self.out[:-1]` unless the input sentence ends with `.`). -/
def runTuner (rules : Rules) (honor : Honorifics) (abbrevT irregT : SubstTable)
    (analyze : List Char → List Token)
    (sent listener visibility : List Char) : Except Err TunerResult :=
  let toks := analyze (preprocessT sent)
  match lookupRule rules listener visibility with
  | none => .error .unknownRuleKey
  | some pol =>
    let step := toks.foldl
      (fun acc t =>
        let r := tunerToken honor pol t
        (acc.1 ++ [r.1], acc.2 ++ r.2))
      ([], [])
    let conj := List.intercalate [' '] step.1
    let a := cleanupStage abbrevT conj
    let i := cleanupStage irregT a.1
    .ok { out := if endsWithCh '.' sent then i.1 else i.1.dropLast,
          logs := [.tokens toks, .text conj, .text a.1, .text i.1],
          histH := step.2, histA := a.2, histI := i.2 }

/-! ### Concrete tables, tokens and analyzers for witnesses -/

deriving instance DecidableEq for Except

/-- A one-entry honorific table: `ㅂ니다/EF` rewrites (at every level, only
level 3 is exercised) to `습니다/EF`, as in the spec's end-to-end scenario. -/
def H1 : Honorifics := [(cs "ㅂ니다/EF", fun _ => cs "습니다/EF")]

/-- A one-entry politeness-rule table: (stranger, public) ↦ level 3. -/
def R1 : Rules := [(cs "stranger", [(cs "public", 3)])]

/-- The token `합니다`-style: lexical form `갑니다`, morphemes
`가/VV + ㅂ니다/EF`. -/
def tok1 : Token := ⟨cs "갑니다", [⟨cs "가", cs "VV"⟩, ⟨cs "ㅂ니다", cs "EF"⟩]⟩

/-- A fixed analyzer output: every sentence analyzes to `[tok1]`. -/
def A1 : List Char → List Token := fun _ => [tok1]

/-- A token with no `EF` anywhere: a bare noun. -/
def tokNoun : Token := ⟨cs "산", [⟨cs "산", cs "NNG"⟩]⟩

/-- A fixed analyzer output: every sentence analyzes to `[tokNoun]`. -/
def A2 : List Char → List Token := fun _ => [tokNoun]

/-- The result of the concrete `run` invocation used by the witnesses. -/
def res1 : RunResult :=
  { out := cs "가습니다",
    logs := [.tokens [tok1], .text (cs "가습니다"),
             .text (cs "가습니다"), .text (cs "가습니다")],
    conjHist := [(cs "ㅂ니다/EF", cs "습니다/EF")],
    abbrHist := [], irregHist := [] }

example :
    run R1 H1 [] [] A1 (cs "가요") (cs "stranger") (cs "public") = .ok res1 := by decide

/-- The result of the concrete `runTuner` invocation used by the witnesses. -/
def resT : TunerResult :=
  { out := cs "갑니",
    logs := [.tokens [tok1], .text (cs "갑니다"),
             .text (cs "갑니다"), .text (cs "갑니다")],
    histH := [], histA := [], histI := [] }

example :
    runTuner R1 ([] : Honorifics) [] [] A1 (cs "가요") (cs "stranger") (cs "public") =
      .ok resT := by decide

/-! ### Supporting lemmas about the string primitives -/

theorem startsWith_iff (p t : List Char) : startsWith p t = true ↔ ∃ r, t = p ++ r := by
  induction p generalizing t with
  | nil =>
    simp only [startsWith, List.nil_append]
    exact ⟨fun _ => ⟨t, rfl⟩, fun _ => trivial⟩
  | cons x xs ih =>
    cases t with
    | nil =>
      simp only [startsWith, List.cons_append]
      constructor
      · intro h; cases h
      · rintro ⟨r, hr⟩; cases hr
    | cons c rest =>
      simp only [startsWith, Bool.and_eq_true, beq_iff_eq, ih, List.cons_append,
        List.cons.injEq]
      constructor
      · rintro ⟨rfl, r, rfl⟩; exact ⟨r, rfl, rfl⟩
      · rintro ⟨r, rfl, rfl⟩; exact ⟨rfl, r, rfl⟩

theorem containsSub_iff (pat s : List Char) :
    containsSub pat s = true ↔ ∃ a b, s = a ++ pat ++ b := by
  unfold containsSub
  simp only [List.any_eq_true, List.mem_range, startsWith_iff]
  constructor
  · rintro ⟨i, _, r, hr⟩
    refine ⟨s.take i, r, ?_⟩
    rw [List.append_assoc, ← hr, List.take_append_drop]
  · rintro ⟨a, b, rfl⟩
    refine ⟨a.length, ?_, b, ?_⟩
    · simp only [List.length_append]; omega
    · rw [List.append_assoc, List.drop_left]

/-- The characterization of `Styler.matched` on newline-free strings: the
pattern occurs at a position anchored on `+` boundaries (or the string's
ends). -/
theorem matched_iff (pattern s : List Char) (hNL : ('\n' : Char) ∉ s) :
    matched pattern s = true ↔
      ∃ a b, s = a ++ pattern ++ b ∧ (a = [] ∨ ∃ a', a = a' ++ ['+']) ∧
        (b = [] ∨ ∃ b', b = '+' :: b') := by
  unfold matched
  simp only [List.any_eq_true, List.mem_range, Bool.and_eq_true]
  constructor
  · rintro ⟨i, _, ⟨hpre, hstart⟩, hsuf⟩
    obtain ⟨r, hr⟩ := (startsWith_iff _ _).1 hstart
    have hdrop2 : (s.drop i).drop pattern.length = r := by rw [hr, List.drop_left]
    have hs : s = s.take i ++ pattern ++ r := by
      rw [List.append_assoc, ← hr, List.take_append_drop]
    refine ⟨s.take i, r, hs, ?_, ?_⟩
    · unfold prefixAnchor at hpre
      rw [Bool.or_eq_true] at hpre
      rcases hpre with h | h
      · exact Or.inl (List.isEmpty_iff.mp h)
      · rw [Bool.and_eq_true] at h
        exact Or.inr (List.getLast?_eq_some_iff.mp (eq_of_beq h.1))
    · unfold suffixAnchor at hsuf
      rw [hdrop2, Bool.or_eq_true, Bool.or_eq_true] at hsuf
      rcases hsuf with (h | h) | h
      · exact Or.inl (List.isEmpty_iff.mp h)
      · exfalso
        apply hNL
        rw [hs, eq_of_beq h]
        simp
      · exact Or.inr (List.head?_eq_some_iff.mp (eq_of_beq h))
  · rintro ⟨a, b, rfl, ha, hb⟩
    have htake : (a ++ pattern ++ b).take a.length = a := by
      rw [List.append_assoc]; exact List.take_left a _
    have hdrop : (a ++ pattern ++ b).drop a.length = pattern ++ b := by
      rw [List.append_assoc]; exact List.drop_left a _
    refine ⟨a.length, by simp only [List.length_append]; omega, ⟨?_, ?_⟩, ?_⟩
    · rw [htake]
      unfold prefixAnchor
      rcases ha with rfl | ⟨a', rfl⟩
      · rfl
      · rw [Bool.or_eq_true, Bool.and_eq_true]
        refine Or.inr ⟨beq_iff_eq.mpr (List.getLast?_eq_some_iff.mpr ⟨a', rfl⟩), ?_⟩
        rw [Bool.not_eq_true']
        rw [← Bool.not_eq_true, List.elem_iff]
        intro hmem
        have h1 : ('\n' : Char) ∈ a' ++ ['+'] := (List.dropLast_sublist _).mem hmem
        exact hNL (List.mem_append.mpr (Or.inl (List.mem_append.mpr (Or.inl h1))))
    · rw [hdrop]
      exact (startsWith_iff _ _).2 ⟨b, rfl⟩
    · rw [hdrop, List.drop_left]
      unfold suffixAnchor
      rcases hb with rfl | ⟨b', rfl⟩
      · rfl
      · rw [Bool.or_eq_true]
        exact Or.inr (beq_iff_eq.mpr rfl)

/-- If `old` occurs in `s` (and is nonempty), the replacement result contains
`new`: the first occurrence really is rewritten. -/
theorem replaceAllGo_occurrence (old new : List Char) (hne : old ≠ []) :
    ∀ (fuel : Nat) (s : List Char), s.length ≤ fuel → containsSub old s = true →
      ∃ x y, replaceAllGo old new fuel s = x ++ new ++ y := by
  intro fuel
  induction fuel with
  | zero =>
    intro s hlen hc
    obtain ⟨a, b, hab⟩ := (containsSub_iff _ _).1 hc
    have : s = [] := List.eq_nil_of_length_eq_zero (Nat.le_zero.mp hlen)
    subst this
    have := congrArg List.length hab
    simp only [List.length_nil, List.length_append] at this
    cases old with
    | nil => exact absurd rfl hne
    | cons _ _ => simp only [List.length_cons] at this; omega
  | succ f ih =>
    intro s hlen hc
    cases s with
    | nil =>
      obtain ⟨a, b, hab⟩ := (containsSub_iff _ _).1 hc
      have := congrArg List.length hab
      simp only [List.length_nil, List.length_append] at this
      cases old with
      | nil => exact absurd rfl hne
      | cons _ _ => simp only [List.length_cons] at this; omega
    | cons c rest =>
      by_cases hsw : startsWith old (c :: rest) = true
      · refine ⟨[], replaceAllGo old new f (rest.drop (old.length - 1)), ?_⟩
        simp [replaceAllGo, hsw]
      · obtain ⟨a, b, hab⟩ := (containsSub_iff _ _).1 hc
        cases a with
        | nil =>
          exact absurd ((startsWith_iff _ _).2 ⟨b, by simpa using hab⟩) hsw
        | cons a0 a' =>
          have hrest : containsSub old rest = true := by
            rw [containsSub_iff]
            refine ⟨a', b, ?_⟩
            have := hab
            simp only [List.cons_append, List.cons.injEq] at this
            exact this.2
          have hlen' : rest.length ≤ f := by
            simp only [List.length_cons] at hlen; omega
          obtain ⟨x, y, hxy⟩ := ih rest hlen' hrest
          refine ⟨c :: x, y, ?_⟩
          simp [replaceAllGo, hsw, hxy]

/-- Replacement visibility: `replaceAll old new s` contains `new` whenever `old` occurred in `s`. -/
theorem replaceAll_contains_new (old new s : List Char) (hne : old ≠ [])
    (h : containsSub old s = true) :
    containsSub new (replaceAll old new s) = true := by
  unfold replaceAll
  rw [if_neg (by simpa [List.isEmpty_iff] using hne)]
  obtain ⟨x, y, hxy⟩ := replaceAllGo_occurrence old new hne s.length s le_rfl h
  rw [hxy, containsSub_iff]
  exact ⟨x, y, rfl⟩

/-! ### Specification-side restatements of the stage loops -/

/-- Follows the claim's words for the conjugation loop: try every
honorific-pattern key in table order against the working string; every key
that matches is replaced by its level-specific replacement on the same working
string, and exactly the applied (pattern, replacement) pairs are recorded. -/
def conjSubSpec (pol : Nat) :
    Honorifics → List Char → List Char × List (List Char × List Char)
  | [], s => (s, [])
  | kv :: rest, s =>
    if matched kv.1 s then
      let r := conjSubSpec pol rest (replaceAll kv.1 (kv.2 pol) s)
      (r.1, (kv.1, kv.2 pol) :: r.2)
    else conjSubSpec pol rest s

/-- Follows the claim's words for the cleanup stages: iterate the rule table
in table order; every pair whose key occurs in the current text is applied
(all occurrences replaced) and recorded; pairs whose key does not occur are
neither applied nor recorded. -/
def cleanupSpec :
    SubstTable → List Char → List Char × List (List Char × List Char)
  | [], text => (text, [])
  | kv :: rest, text =>
    if containsSub kv.1 text then
      let r := cleanupSpec rest (replaceAll kv.1 kv.2 text)
      (r.1, kv :: r.2)
    else cleanupSpec rest text

/-- Follows the claim's words for validation: some token has a morpheme whose
tag contains `"EF"` (an "EF tag component"). -/
def hasEFTagComponent (toks : List Token) : Bool :=
  toks.any fun t => t.morphs.any fun m => containsSub (cs "EF") m.tag

/-- Modelled from the spec: the abbreviation rule table loaded by
`fetch_abbreviations` is not under `src/`; the spec (§8, scenario 4) states
that it contains the pair `("안녕하세요", "안뇽하세요")`, which is all this
development needs of it. -/
def abbrevTableSpec : SubstTable := [(cs "안녕하세요", cs "안뇽하세요")]

theorem conjSub_spec_aux (pol : Nat) :
    ∀ (honor : Honorifics) (s : List Char) (acc : List (List Char × List Char)),
      honor.foldl
        (fun acc kv =>
          if matched kv.1 acc.1 then
            (replaceAll kv.1 (kv.2 pol) acc.1, acc.2 ++ [(kv.1, kv.2 pol)])
          else acc)
        (s, acc)
      = ((conjSubSpec pol honor s).1, acc ++ (conjSubSpec pol honor s).2)
  | [], s, acc => by simp [conjSubSpec]
  | kv :: rest, s, acc => by
    simp only [List.foldl_cons, conjSubSpec]
    by_cases h : matched kv.1 s = true
    · simp only [h, if_true]
      rw [conjSub_spec_aux pol rest _ (acc ++ [(kv.1, kv.2 pol)])]
      simp
    · simp only [h, if_false, Bool.false_eq_true]
      rw [conjSub_spec_aux pol rest s acc]

theorem cleanup_spec_aux :
    ∀ (table : SubstTable) (text : List Char) (acc : List (List Char × List Char)),
      table.foldl
        (fun acc kv =>
          if containsSub kv.1 acc.1 then (replaceAll kv.1 kv.2 acc.1, acc.2 ++ [kv])
          else acc)
        (text, acc)
      = ((cleanupSpec table text).1, acc ++ (cleanupSpec table text).2)
  | [], text, acc => by simp [cleanupSpec]
  | kv :: rest, text, acc => by
    simp only [List.foldl_cons, cleanupSpec]
    by_cases h : containsSub kv.1 text = true
    · simp only [h, if_true]
      rw [cleanup_spec_aux rest _ (acc ++ [kv])]
      simp
    · simp only [h, if_false, Bool.false_eq_true]
      rw [cleanup_spec_aux rest text acc]

theorem conjugate_foldl (honor : Honorifics) (pol : Nat) :
    ∀ (toks : List Token) (accL : List (List Char))
      (accH : List (List Char × List Char)),
      toks.foldl
        (fun acc t =>
          let r := conjToken honor pol t
          (acc.1 ++ [r.1], acc.2 ++ r.2))
        (accL, accH)
      = (accL ++ toks.map (fun t => (conjToken honor pol t).1),
         accH ++ toks.flatMap (fun t => (conjToken honor pol t).2))
  | [], accL, accH => by simp
  | t :: rest, accL, accH => by
    simp only [List.foldl_cons, List.map_cons, List.flatMap_cons]
    rw [conjugate_foldl honor pol rest (accL ++ [(conjToken honor pol t).1])
      (accH ++ (conjToken honor pol t).2)]
    simp

/-- With no matching pattern, the conjugation loop leaves the working string
unchanged and records nothing. -/
theorem conjSub_no_match :
    ∀ (honor : Honorifics) (pol : Nat) (s : List Char),
      (∀ kv ∈ honor, matched kv.1 s = false) → conjSub honor pol s = (s, [])
  | [], _, _, _ => rfl
  | kv :: rest, pol, s, h => by
    have h1 : matched kv.1 s = false := h kv (List.mem_cons_self kv rest)
    have h2 := conjSub_no_match rest pol s fun kv' hm => h kv' (List.mem_cons_of_mem kv hm)
    unfold conjSub at h2 ⊢
    simpa [h1] using h2

/-- With no matching pattern and no `+` inside any morpheme string, a token's
conjugation emits its lexical form unchanged and records nothing. -/
theorem conjToken_no_match (honor : Honorifics) (pol : Nat) (t : Token)
    (hnm : ∀ kv ∈ honor, matched kv.1 (sigOf t) = false)
    (hplus : ∀ m ∈ t.morphs, ('+' : Char) ∉ morphStr m) :
    conjToken honor pol t = (t.lex, []) := by
  have hconj : conjSub honor pol (List.intercalate ['+'] (t.morphs.map morphStr))
      = (List.intercalate ['+'] (t.morphs.map morphStr), []) :=
    conjSub_no_match honor pol _ hnm
  simp only [conjToken, hconj]
  cases hm : t.morphs with
  | nil => rfl
  | cons m0 ms =>
    have hsplit : (List.intercalate ['+'] ((m0 :: ms).map morphStr)).splitOn '+'
        = (m0 :: ms).map morphStr := by
      refine List.splitOn_intercalate _ '+' ?_ (by simp)
      intro l hl
      obtain ⟨m, hm', rfl⟩ := List.mem_map.1 hl
      exact hplus m (by rw [hm]; exact hm')
    rw [hsplit]
    simp

example : matched (cs "VV") (cs "VVX/VV+EF/EF") = false := by decide
example : matched (cs "VV/VV") (cs "VVX/VV+EF/EF") = false := by decide
example : matched (cs "VVX/VV") (cs "VVX/VV+EF/EF") = true := by decide

/-! ### The claims -/

/-- C2 (counterexample): the claim asserts that pattern `"VV/VV"` matches
joined signature `"VVX/VV+EF/EF"` at the string start; in fact `"VV/VV"` does
not occur in that string at all (it begins `"VVX/"`), so `Styler.matched`
returns false. -/
theorem matched_claim_counterexample :
    matched (cs "VV/VV") (cs "VVX/VV+EF/EF") = false := by decide

/-- C2 (amended): `matched(pattern, s)` returns true iff `pattern` occurs in
`s` starting at the beginning of the string or immediately after a `'+'` and
ending at the end of the string or immediately before a `'+'` (for
newline-free `s`, which every joined signature is); pattern `"VV"` does not
match `"VVX/VV+EF/EF"`, while pattern `"VVX/VV"` matches it at the string
start. -/
theorem matched_boundary_anchoring :
    (∀ pattern s : List Char, ('\n' : Char) ∉ s →
      (matched pattern s = true ↔
        ∃ a b, s = a ++ pattern ++ b ∧ (a = [] ∨ ∃ a', a = a' ++ ['+'])
          ∧ (b = [] ∨ ∃ b', b = '+' :: b')))
    ∧ matched (cs "VV") (cs "VVX/VV+EF/EF") = false
    ∧ matched (cs "VVX/VV") (cs "VVX/VV+EF/EF") = true :=
  ⟨matched_iff, by decide, by decide⟩

theorem matched_boundary_anchoring_witness :
    matched (cs "다/EF") (cs "가/VV+다/EF") = true :=
  (matched_boundary_anchoring.1 (cs "다/EF") (cs "가/VV+다/EF") (by decide)).2
    ⟨cs "가/VV+", [], by decide, Or.inr ⟨cs "가/VV", by decide⟩, Or.inl rfl⟩

/-- C4: preprocessing strips the sentence and appends `'.'` exactly when the
stripped text ends with none of `'.'`, `'?'`, `'!'`; otherwise the stripped
text is passed on unchanged. -/
theorem preprocess_trim_and_period (sent : List Char) :
    ((endsWithCh '.' (pyStrip sent) = false ∧ endsWithCh '?' (pyStrip sent) = false
        ∧ endsWithCh '!' (pyStrip sent) = false) →
      preprocess sent = pyStrip sent ++ ['.'])
    ∧ ((endsWithCh '.' (pyStrip sent) = true ∨ endsWithCh '?' (pyStrip sent) = true
        ∨ endsWithCh '!' (pyStrip sent) = true) →
      preprocess sent = pyStrip sent) := by
  unfold preprocess
  constructor
  · rintro ⟨h1, h2, h3⟩
    simp [h1, h2, h3]
  · rintro (h | h | h) <;> simp [h]

theorem preprocess_trim_and_period_witness :
    preprocess (cs "  hello  ") = pyStrip (cs "  hello  ") ++ ['.'] :=
  (preprocess_trim_and_period (cs "  hello  ")).1 (by decide)

/-- C5: each cleanup stage iterates its table in order, applying (to all
occurrences) and recording exactly the pairs whose key occurs in the current
working text (`cleanupSpec` states the claim's words; `cleanupStage` is the
source loop); in particular, with the abbreviation table containing
`("안녕하세요", "안뇽하세요")`, any current text containing the key yields an
output containing the replacement and a history containing that pair. -/
theorem cleanup_stage_applies_contained_keys (table : SubstTable) (text : List Char) :
    ((cleanupStage table text).1 = (cleanupSpec table text).1
      ∧ ∀ p, p ∈ (cleanupStage table text).2 ↔ p ∈ (cleanupSpec table text).2)
    ∧ (∀ t, containsSub (cs "안녕하세요") t = true →
        containsSub (cs "안뇽하세요") (cleanupStage abbrevTableSpec t).1 = true
        ∧ (cs "안녕하세요", cs "안뇽하세요") ∈ (cleanupStage abbrevTableSpec t).2) := by
  constructor
  · have h := cleanup_spec_aux table text []
    unfold cleanupStage
    rw [h]
    exact ⟨rfl, fun p => by simp⟩
  · intro t ht
    have hstage : cleanupStage abbrevTableSpec t
        = (replaceAll (cs "안녕하세요") (cs "안뇽하세요") t,
           [(cs "안녕하세요", cs "안뇽하세요")]) := by
      unfold cleanupStage abbrevTableSpec
      simp [ht]
    rw [hstage]
    exact ⟨replaceAll_contains_new _ _ _ (by decide) ht, by simp⟩

theorem cleanup_stage_applies_contained_keys_witness :
    containsSub (cs "안뇽하세요")
        (cleanupStage abbrevTableSpec (cs "안녕하세요 여러분")).1 = true
      ∧ (cs "안녕하세요", cs "안뇽하세요")
        ∈ (cleanupStage abbrevTableSpec (cs "안녕하세요 여러분")).2 :=
  (cleanup_stage_applies_contained_keys abbrevTableSpec (cs "안녕하세요 여러분")).2
    (cs "안녕하세요 여러분") (by decide)

/-- C8: an invocation's outcome (output string, logs, and all three
substitution-history sets) does not depend on the instance state left behind
by earlier invocations: `clear` resets every field that the pipeline reads. -/
theorem run_output_independent_of_prior_state
    (rules : Rules) (honor : Honorifics) (abbrevT irregT : SubstTable)
    (analyze : List Char → List Token) (st st' : StylerState)
    (sent listener environ : List Char) :
    callS rules honor abbrevT irregT analyze st sent listener environ
      = callS rules honor abbrevT irregT analyze st' sent listener environ := by
  unfold callS clearS
  cases hc : check honor (analyze (preprocess sent)) with
  | error e => rfl
  | ok u =>
    cases hl : lookupRule rules listener environ with
    | none => rfl
    | some pol => rfl

/-- C9: when validation passes but `(listener, environ)` is absent from the
politeness-rule table, `run` aborts with `UnknownRuleKeyError` (the lookup is
the first thing the conjugation stage does) and produces no output. -/
theorem missing_rule_key_aborts_run
    (rules : Rules) (honor : Honorifics) (abbrevT irregT : SubstTable)
    (analyze : List Char → List Token) (sent listener environ : List Char)
    (hcheck : check honor (analyze (preprocess sent)) = .ok ())
    (hmiss : lookupRule rules listener environ = none) :
    run rules honor abbrevT irregT analyze sent listener environ
      = .error .unknownRuleKey := by
  unfold run
  rw [hcheck, hmiss]

theorem missing_rule_key_aborts_run_witness :
    run ([] : Rules) H1 [] [] A1 (cs "가요") (cs "stranger") (cs "public")
      = .error .unknownRuleKey :=
  missing_rule_key_aborts_run [] H1 [] [] A1 (cs "가요") (cs "stranger") (cs "public")
    (by decide) (by decide)
example : matched (cs "ㅂ니다/EF") (cs "하/VV+ㅂ니다/EF") = true := by decide
example : replaceAll (cs "aa") (cs "b") (cs "aaa") = cs "ba" := by decide
example : replaceAll (cs "b") (cs "XX") (cs "abcb") = cs "aXXcXX" := by decide
example : containsSub (cs "bc") (cs "abcd") = true := by decide
example : containsSub (cs "ca") (cs "abcd") = false := by decide

/-- C1: for every token the conjugation loop tries every honorific-pattern key
in table order against the working string (initially the token's joined
signature); every key that matches the current working string is replaced by
its level-specific replacement on that working string (later tests run on the
already-substituted string), and exactly the applied (pattern, replacement)
pairs are recorded — `conjSubSpec` states the claim's words, `conjSub` is the
source loop; the run's conjugation set collects exactly the per-token applied
pairs. -/
theorem conjugation_tries_every_pattern_in_order (honor : Honorifics) (pol : Nat) :
    (∀ s, (conjSub honor pol s).1 = (conjSubSpec pol honor s).1
      ∧ ∀ p, p ∈ (conjSub honor pol s).2 ↔ p ∈ (conjSubSpec pol honor s).2)
    ∧ ∀ toks p, p ∈ (conjugate honor pol toks).2 ↔
        ∃ t ∈ toks, p ∈ (conjSubSpec pol honor (sigOf t)).2 := by
  have hsub : ∀ s, conjSub honor pol s
      = ((conjSubSpec pol honor s).1, (conjSubSpec pol honor s).2) := by
    intro s
    unfold conjSub
    rw [conjSub_spec_aux pol honor s []]
    simp
  have h2 : ∀ t : Token,
      (conjToken honor pol t).2 = (conjSubSpec pol honor (sigOf t)).2 := by
    intro t
    rw [show (conjToken honor pol t).2 = (conjSub honor pol (sigOf t)).2 from rfl,
      hsub]
  constructor
  · intro s
    rw [hsub s]
    exact ⟨rfl, fun p => Iff.rfl⟩
  · intro toks p
    simp only [conjugate]
    rw [conjugate_foldl]
    simp only [List.nil_append, List.mem_flatMap, h2]

theorem conjugation_tries_every_pattern_in_order_witness :
    (conjSub H1 3 (cs "가/VV+ㅂ니다/EF")).1 = (conjSubSpec 3 H1 (cs "가/VV+ㅂ니다/EF")).1 :=
  ((conjugation_tries_every_pattern_in_order H1 3).1 (cs "가/VV+ㅂ니다/EF")).1

/-- Source `Styler.check` raises `EFNotIncludedError` when no joined signature
contains `"EF"` as a substring. -/
theorem check_error_of_no_ef (honor : Honorifics) (toks : List Token)
    (hall : ∀ s ∈ toks.map sigOf, containsSub (cs "EF") s = false) :
    check honor toks
      = .error (.unsupportedInput (List.intercalate ['|'] (toks.map sigOf))) := by
  have hfil : (toks.map sigOf).filter (fun s => containsSub (cs "EF") s) = [] := by
    rw [List.filter_eq_nil_iff]
    intro s hs
    simp [hall s hs]
  simp only [check, hfil]
  rfl

/-- Source `Styler.check` raises `EFNotSupportedError` carrying the first
`"EF"`-containing signature matched by no honorific key, whenever one
exists. -/
theorem check_error_of_unmatched_ef (honor : Honorifics) (toks : List Token)
    (hex : ∃ ef ∈ (toks.map sigOf).filter (fun s => containsSub (cs "EF") s),
      (honor.any fun kv => matched kv.1 ef) = false) :
    ∃ ef, check honor toks = .error (.unrecognizedPattern ef)
      ∧ ef ∈ (toks.map sigOf).filter (fun s => containsSub (cs "EF") s)
      ∧ (honor.any fun kv => matched kv.1 ef) = false := by
  obtain ⟨ef0, hef0, hno0⟩ := hex
  have hne : ((toks.map sigOf).filter (fun s => containsSub (cs "EF") s)).isEmpty
      = false := by
    rw [← Bool.not_eq_true, List.isEmpty_iff]
    intro h
    rw [h] at hef0
    cases hef0
  cases hf : ((toks.map sigOf).filter (fun s => containsSub (cs "EF") s)).find?
      (fun ef => !(honor.any fun kv => matched kv.1 ef)) with
  | none =>
    exfalso
    have h := List.find?_eq_none.mp hf ef0 hef0
    rw [hno0] at h
    simp at h
  | some ef =>
    have hp := List.find?_some hf
    have hmem := List.mem_of_find?_eq_some hf
    refine ⟨ef, ?_, hmem, by simpa using hp⟩
    simp only [check, hne, hf]
    rfl

def tokSurfEF : Token := ⟨cs "EF", [⟨cs "EF", cs "NNG"⟩]⟩

/-- A fixed analyzer output: every sentence analyzes to `[tokSurfEF]`. -/
def A3 : List Char → List Token := fun _ => [tokSurfEF]

/-- C3 (counterexample): on a token sequence whose only token has surface
`"EF"` and tag `"NNG"`, there is no "EF" tag component, yet `run` does not
fail with `UnsupportedInputError` as the claim requires — the substring test
`"EF" in signature` fires on the surface, and `run` raises
`UnrecognizedPatternError` instead. -/
theorem validation_ef_substring_counterexample :
    hasEFTagComponent [tokSurfEF] = false
    ∧ run R1 [] [] [] A3 (cs "x") (cs "stranger") (cs "public")
        = .error (.unrecognizedPattern (cs "EF/NNG"))
    ∧ isUnsupportedInput
        (run R1 ([] : Honorifics) [] [] A3 (cs "x") (cs "stranger") (cs "public"))
      = false :=
  ⟨by decide, by decide, by decide⟩

/-- C3 (amended): before any substitution is performed, `run` fails with
`UnsupportedInputError` for every analyzed token sequence in which no token's
joined signature contains `"EF"` as a literal substring, and fails with
`UnrecognizedPatternError` (carrying an offending signature) for every
sequence in which some `"EF"`-containing token signature matches no
honorific-pattern key. -/
theorem validation_fails_before_substitution
    (rules : Rules) (honor : Honorifics) (abbrevT irregT : SubstTable)
    (analyze : List Char → List Token) (sent listener environ : List Char) :
    ((∀ s ∈ (analyze (preprocess sent)).map sigOf, containsSub (cs "EF") s = false) →
      run rules honor abbrevT irregT analyze sent listener environ
        = .error (.unsupportedInput
            (List.intercalate ['|'] ((analyze (preprocess sent)).map sigOf))))
    ∧ ((∃ ef ∈ ((analyze (preprocess sent)).map sigOf).filter
          (fun s => containsSub (cs "EF") s),
        (honor.any fun kv => matched kv.1 ef) = false) →
      ∃ ef, run rules honor abbrevT irregT analyze sent listener environ
          = .error (.unrecognizedPattern ef)
        ∧ ef ∈ ((analyze (preprocess sent)).map sigOf).filter
            (fun s => containsSub (cs "EF") s)
        ∧ (honor.any fun kv => matched kv.1 ef) = false) := by
  constructor
  · intro hall
    have hchk := check_error_of_no_ef honor (analyze (preprocess sent)) hall
    unfold run
    rw [hchk]
  · intro hex
    obtain ⟨ef, hchk, hmem, hno⟩ :=
      check_error_of_unmatched_ef honor (analyze (preprocess sent)) hex
    refine ⟨ef, ?_, hmem, hno⟩
    unfold run
    rw [hchk]

theorem validation_fails_before_substitution_witness :
    run R1 H1 [] [] A2 (cs "산") (cs "stranger") (cs "public")
      = .error (.unsupportedInput (cs "산/NNG")) := by
  have h := (validation_fails_before_substitution R1 H1 [] [] A2 (cs "산")
    (cs "stranger") (cs "public")).1 (by decide)
  rw [h]
  decide

def tokPlus : Token := ⟨cs "1+1", [⟨cs "1", cs "SN"⟩, ⟨cs "+", cs "SW"⟩, ⟨cs "1", cs "SN"⟩]⟩

/-- C6 (counterexample): with an empty honorific table (so no pattern matches
any token), the token `1+1` — whose middle morpheme has surface `"+"` — is
rewritten to `"11"` by the conjugation stage, because splitting the joined
signature on `'+'` does not invert the join when a morpheme string itself
contains `'+'`; the stage output differs from the space-joined lexical
forms. -/
theorem conjugate_plus_surface_counterexample :
    (conjugate ([] : Honorifics) 1 [tokPlus]).1 = cs "11"
    ∧ List.intercalate [' '] ([tokPlus].map Token.lex) = cs "1+1"
    ∧ (cs "11" : List Char) ≠ cs "1+1" :=
  ⟨by decide, by decide, by decide⟩

/-- C6 (amended): when no honorific-pattern key matches any token's joined
signature and no token's morpheme string contains `'+'`, the conjugation
stage's output equals the tokens' original lexical forms joined with single
spaces (each token's reconstructed surface equals its pre-substitution
surface, so the original lexical form is emitted unchanged). -/
theorem conjugate_no_match_keeps_lex (honor : Honorifics) (pol : Nat)
    (toks : List Token)
    (hnm : ∀ t ∈ toks, ∀ kv ∈ honor, matched kv.1 (sigOf t) = false)
    (hplus : ∀ t ∈ toks, ∀ m ∈ t.morphs, ('+' : Char) ∉ morphStr m) :
    (conjugate honor pol toks).1 = List.intercalate [' '] (toks.map Token.lex) := by
  simp only [conjugate]
  rw [conjugate_foldl]
  simp only [List.nil_append]
  congr 1
  apply List.map_congr_left
  intro t ht
  rw [conjToken_no_match honor pol t (hnm t ht) (hplus t ht)]

theorem conjugate_no_match_keeps_lex_witness :
    (conjugate ([] : Honorifics) 3 [tok1]).1
      = List.intercalate [' '] ([tok1].map Token.lex) :=
  conjugate_no_match_keeps_lex [] 3 [tok1] (by simp) (by decide)

/-- C7: every completing invocation of `run` records exactly 4 history
entries, in stage order: the analyzed tokens, the conjugation output, the
abbreviation output, and the irregular-normalization output. -/
theorem run_records_four_stage_logs
    (rules : Rules) (honor : Honorifics) (abbrevT irregT : SubstTable)
    (analyze : List Char → List Token) (sent listener environ : List Char)
    (r : RunResult)
    (h : run rules honor abbrevT irregT analyze sent listener environ = .ok r) :
    ∃ pol, lookupRule rules listener environ = some pol
      ∧ r.logs = [LogEntry.tokens (analyze (preprocess sent)),
          LogEntry.text (conjugate honor pol (analyze (preprocess sent))).1,
          LogEntry.text (cleanupStage abbrevT
            (conjugate honor pol (analyze (preprocess sent))).1).1,
          LogEntry.text (cleanupStage irregT (cleanupStage abbrevT
            (conjugate honor pol (analyze (preprocess sent))).1).1).1]
      ∧ r.logs.length = 4 := by
  unfold run at h
  cases hc : check honor (analyze (preprocess sent)) with
  | error e => rw [hc] at h; cases h
  | ok u =>
    rw [hc] at h
    cases hl : lookupRule rules listener environ with
    | none => rw [hl] at h; cases h
    | some pol =>
      rw [hl] at h
      rw [Except.ok.injEq] at h
      subst h
      exact ⟨pol, rfl, rfl, rfl⟩

theorem run_records_four_stage_logs_witness :
    ∃ pol, lookupRule R1 (cs "stranger") (cs "public") = some pol
      ∧ res1.logs = [LogEntry.tokens (A1 (preprocess (cs "가요"))),
          LogEntry.text (conjugate H1 pol (A1 (preprocess (cs "가요")))).1,
          LogEntry.text (cleanupStage []
            (conjugate H1 pol (A1 (preprocess (cs "가요")))).1).1,
          LogEntry.text (cleanupStage [] (cleanupStage []
            (conjugate H1 pol (A1 (preprocess (cs "가요")))).1).1).1]
      ∧ res1.logs.length = 4 :=
  run_records_four_stage_logs R1 H1 [] [] A1 (cs "가요") (cs "stranger")
    (cs "public") res1 (by decide)

/-- C10: in the legacy `Tuner`, a completing invocation returns the
irregular-stage output unchanged when the input sentence ends with `'.'`, and
otherwise returns it with its final character removed, whatever that
character is. -/
theorem tuner_postprocess_drops_last_char
    (rules : Rules) (honor : Honorifics) (abbrevT irregT : SubstTable)
    (analyze : List Char → List Token) (sent listener visibility : List Char)
    (r : TunerResult)
    (h : runTuner rules honor abbrevT irregT analyze sent listener visibility
      = .ok r) :
    ∃ t, r.logs.get? 3 = some (.text t)
      ∧ (endsWithCh '.' sent = false → r.out = t.dropLast)
      ∧ (endsWithCh '.' sent = true → r.out = t) := by
  unfold runTuner at h
  cases hl : lookupRule rules listener visibility with
  | none => rw [hl] at h; cases h
  | some pol =>
    rw [hl] at h
    rw [Except.ok.injEq] at h
    subst h
    refine ⟨_, rfl, ?_, ?_⟩
    · intro he
      simp only [he]
      rfl
    · intro he
      simp only [he]
      rfl

theorem tuner_postprocess_drops_last_char_witness :
    ∃ t, resT.logs.get? 3 = some (.text t)
      ∧ (endsWithCh '.' (cs "가요") = false → resT.out = t.dropLast)
      ∧ (endsWithCh '.' (cs "가요") = true → resT.out = t) :=
  tuner_postprocess_drops_last_char R1 [] [] [] A1 (cs "가요") (cs "stranger")
    (cs "public") resT (by decide)

end Politely
